import Mathlib

/-!
Verification of the ServicesBackup snapshot reconciliation engine
(`src/main.py`, class `Program`) against its specification.

A service record is modelled as a Python dict with string keys and string
values: an insertion-ordered association list.  Python dict primitives
(`d[k]`, `k in d`, `d[k] = v`, dict equality, dict comprehensions) are
embedded as executable functions on association lists with Python's
semantics: insertion order is preserved, assigning to an existing key
replaces the value in place, and building a dict from a sequence of pairs
is last-write-wins.  Fallible operations (`load_services_from_file`,
`configurations_difference`) return `Except`; the side-effecting restore
loop is embedded as explicit state holding the trace of subprocess
invocations and the recorded failures.
-/

namespace ServicesBackup

/-- A Python dict with string keys and string values (a service record),
as an insertion-ordered association list. -/
abbrev Rec := List (String × String)

/-- `Program._only_save_rows = ["Name", "DisplayName", "StartType"]`. -/
def only_save_rows : List String := ["Name", "DisplayName", "StartType"]

/-- Python dict lookup `d.get(k)`: first (and, for genuine dicts, only)
binding of the key. -/
def dlookup {α : Type} (d : List (String × α)) (k : String) : Option α :=
  (List.find? (fun p => p.1 == k) d).map (fun p => p.2)

/-- Python `k in d`. -/
def dmem {α : Type} (d : List (String × α)) (k : String) : Bool :=
  (dlookup d k).isSome

/-- `d.keys()`. -/
def keysOf {α : Type} (d : List (String × α)) : List String :=
  d.map (fun p => p.1)

/-- `d.values()`. -/
def valuesOf {α : Type} (d : List (String × α)) : List α :=
  d.map (fun p => p.2)

/-- Python `r[k]` for a string-valued record; totalised with `""` — every
use below corresponds to a `KeyError`-free access in the program flow. -/
def dgetD (r : Rec) (k : String) : String :=
  (dlookup r k).getD ""

/-- Python `d[k] = v`: replace in place when the key exists (keeping its
insertion position), otherwise append. -/
def pyInsert {α : Type} (d : List (String × α)) (k : String) (v : α) : List (String × α) :=
  if dmem d k then d.map (fun p => if p.1 == k then (k, v) else p) else d ++ [(k, v)]

/-- Python `a == b` on string-valued dicts: same key set, same value at
every key. -/
def dictEq (a b : Rec) : Bool :=
  a.all (fun p => dlookup b p.1 == some p.2) && b.all (fun p => dlookup a p.1 == some p.2)

/-- Code-point comparison of characters, as Python compares `str`. -/
def charListLe : List Char → List Char → Bool
  | [], _ => true
  | _ :: _, [] => false
  | c :: cs, d :: ds =>
    if c.toNat < d.toNat then true
    else if d.toNat < c.toNat then false
    else charListLe cs ds

/-- Python `s <= t` on strings: lexicographic by Unicode code point. -/
def strLe (a b : String) : Bool := charListLe a.data b.data

/-- The sort key of `sorted(services, key=lambda x: x["DisplayName"])`. -/
def dnle (a b : Rec) : Bool := strLe (dgetD a "DisplayName") (dgetD b "DisplayName")

/-- Python's stable `sorted` by the `DisplayName` field.  A stable sort is
unique given a total transitive comparison, so insertion sort (which keeps
the original relative order of equal keys) has exactly the semantics of
Python's `sorted`. -/
def pySortByDN (recs : List Rec) : List Rec :=
  List.insertionSort (fun a b => dnle a b = true) recs

/-- A parsed JSON value, restricted to the shapes the snapshot store
distinguishes: the top level is tested with
`isinstance(services, list)` / `isinstance(service, dict)`, and record
fields are strings (the persisted format stores string values). -/
inductive PVal where
  | vstr : String → PVal
  | vlist : List PVal → PVal
  | vdict : Rec → PVal

/-- The record carried by a `PVal.vdict`, if any. -/
def asRec : PVal → Option Rec
  | .vdict d => some d
  | _ => none

/-- The `isinstance(services, list) and all(isinstance(service, dict) ...)`
check of `load_services_from_file`: the list of records when the top-level
value is a list of dicts, `none` otherwise. -/
def toRecs : PVal → Option (List Rec)
  | .vlist items => items.mapM asRec
  | _ => none

/-- The two `ValueError`s of `load_services_from_file`:
`"File is not a list of services"` and
`"Service is missing key ..."` (carrying the key and the record). -/
inductive LoadError where
  | malformed
  | missingField (key : String) (record : Rec)
deriving DecidableEq

/-- The first validation failure of the key loop in
`load_services_from_file`: records in order, keys in
`_only_save_rows` order. -/
def firstMissing (recs : List Rec) : Option (String × Rec) :=
  recs.findSome? (fun r =>
    (only_save_rows.find? (fun k => !(dmem r k))).map (fun k => (k, r)))

/-- `Program.load_services_from_file`, lines 29–40: parse (the `PVal`
argument is the value `json.load` produced), validate the top-level shape,
validate the three required keys of every record, and return the records
sorted by `DisplayName`. -/
def load_services_from_file (v : PVal) : Except LoadError (List Rec) :=
  match toRecs v with
  | none => .error .malformed
  | some recs =>
    match firstMissing recs with
    | some kr => .error (.missingField kr.1 kr.2)
    | none => .ok (pySortByDN recs)

/-- `Program.backup_services`, lines 24–27: `json.dump` of the record
list, i.e. the parsed value that reading the file back produces. -/
def backup_services (services : List Rec) : PVal :=
  .vlist (services.map .vdict)

/-- The failures of `Program.configurations_difference`: the
`ValueError("Different number of services. Current: …, Backup: …")` and
the `KeyError` of `services_old_dict[serv_name]`. -/
inductive StrictDiffError where
  | countMismatch (current backup : Nat)
  | keyError (name : String)
deriving DecidableEq

/-- The per-service entry of the strict diff:
`{key: {"OldValue": …, "NewValue": …} for key in only_save_rows if …}`,
a dict comprehension over the three distinct persisted keys, kept as the
ordered list of `(key, old value, new value)` triples. -/
def strictEntry (bac cur : Rec) : List (String × String × String) :=
  only_save_rows.foldl (fun acc k =>
    if dgetD cur k == dgetD bac k then acc
    else acc ++ [(k, dgetD bac k, dgetD cur k)]) []

/-- The name-keyed dict `{service["Name"]: service for service in …}`. -/
def buildDict (recs : List Rec) : List (String × Rec) :=
  recs.foldl (fun d r => pyInsert d (dgetD r "Name") r) []

/-- `Program.configurations_difference`, lines 99–112: strict
snapshot-vs-snapshot diff.  Fails when the two snapshots have different
lengths; otherwise walks `services_new`, looks each name up in the old
snapshot's dict, and appends a field diff for every record that is not
equal to its backup counterpart. -/
def configurations_difference (services_old services_new : List Rec) :
    Except StrictDiffError (List (List (String × String × String))) :=
  let services_old_dict := buildDict services_old
  if services_new.length ≠ services_old.length then
    .error (.countMismatch services_new.length services_old.length)
  else
    services_new.foldlM (fun acc serv_cur =>
      match dlookup services_old_dict (dgetD serv_cur "Name") with
      | none => .error (.keyError (dgetD serv_cur "Name"))
      | some serv_bac =>
        if dictEq serv_cur serv_bac then pure acc
        else pure (acc ++ [strictEntry serv_bac serv_cur])) []

/-- The character class `[a-z0-9]` of the suffix regex. -/
def isSuffixChar (c : Char) : Bool :=
  (decide ('a'.toNat ≤ c.toNat) && decide (c.toNat ≤ 'z'.toNat)) ||
    (decide ('0'.toNat ≤ c.toNat) && decide (c.toNat ≤ '9'.toNat))

/-- Whether `[a-z0-9]{,10}$` can match the remainder `cs` after an
underscore.  Python's `$` (without `re.MULTILINE`) matches at the absolute
end of the string or just before a single trailing newline, so the greedy
repetition succeeds exactly when it consumes the whole remainder (at most
10 class characters), or all of the remainder except one final `'\n'`.
Returns the part of `cs` after the match end — `[]` or `['\n']` — which
`re.sub` keeps (`$` is zero-width, so a trailing newline survives). -/
def endMatch (cs : List Char) : Option (List Char) :=
  if decide (cs.length ≤ 10) && cs.all isSuffixChar then some []
  else if cs.getLast? == some '\n' && decide (cs.dropLast.length ≤ 10) &&
      cs.dropLast.all isSuffixChar then some ['\n']
  else none

/-- The single substitution of `re.sub(r"_[a-z0-9]{,10}$", "", name)` on a
char list: Python scans positions left to right, and a position matches
exactly when it holds `_` and `endMatch` accepts the remainder.  Returns
the whole resulting string (the part before the match, then whatever
follows the match end), or `none` when the pattern does not match. -/
def stripSuffixAux : List Char → Option (List Char)
  | [] => none
  | c :: cs =>
    match if c == '_' then endMatch cs else none with
    | some leftover => some leftover
    | none => (stripSuffixAux cs).map (fun res => c :: res)

/-- `re.sub(r"_[a-z0-9]{,10}$", "", service_name)` from
`Program.print_backup_difference` line 123. -/
def normalize (name : String) : String :=
  match stripSuffixAux name.data with
  | some res => String.mk res
  | none => name

/-- The `ignore_suffix` rebuild of a name-keyed dict, lines 120–128: for
each stored key in insertion order, strip the suffix, copy the record,
overwrite its `"Name"`, and insert under the new name (Python dict
insertion: last write wins, the first occurrence fixes the position). -/
def normDict (d : List (String × Rec)) : List (String × Rec) :=
  d.foldl (fun nd p =>
    pyInsert nd (normalize p.1) (pyInsert p.2 "Name" (normalize p.1))) []

/-- The changed-entry built at lines 141–143: `copy.deepcopy(serv_cur)`
updated by the dict comprehension
`{key: f"{serv_bac[key]} -> {serv_cur[key]}" for key in serv_cur.keys() if serv_cur[key] != serv_bac[key]}`.
`overlayUpdates` is the comprehension (a dict built by insertion over the
record's keys), `srcOverlay` applies it with `dict.update`. -/
def overlayUpdates (serv_bac serv_cur : Rec) : Rec :=
  (keysOf serv_cur).foldl (fun acc k =>
    if dgetD serv_cur k == dgetD serv_bac k then acc
    else pyInsert acc k (dgetD serv_bac k ++ " -> " ++ dgetD serv_cur k)) []

/-- See `overlayUpdates`. -/
def srcOverlay (serv_bac serv_cur : Rec) : Rec :=
  (overlayUpdates serv_bac serv_cur).foldl (fun acc p => pyInsert acc p.1 p.2) serv_cur

/-- The `services_diff` loop of `Program.print_backup_difference`,
lines 129–144, over the values of the two name-keyed dicts: skip live
records with no backup entry, skip fully-equal records, skip records whose
`StartType` is unchanged, otherwise append the overlay entry. -/
def tolerantChanged (bdict cdict : List (String × Rec)) : List Rec :=
  (valuesOf cdict).foldl (fun acc serv_cur =>
    match dlookup bdict (dgetD serv_cur "Name") with
    | none => acc
    | some serv_bac =>
      if dictEq serv_cur serv_bac then acc
      else if dgetD serv_cur "StartType" == dgetD serv_bac "StartType" then acc
      else acc ++ [srcOverlay serv_bac serv_cur]) []

/-- The three sections `print_backup_difference` prints. -/
structure DiffReport where
  changed : List Rec
  deleted_services : List Rec
  new_services : List Rec
deriving DecidableEq

/-- `Program.print_backup_difference`, lines 114–156, as the pure
transformation it performs once its two collaborators have produced the
backup snapshot (`load_services_from_file`) and the live snapshot
(`list_services`): build the two name-keyed dicts, rebuild them when
`ignore_suffix` is set, and compute the changed, deleted and new lists. -/
def print_backup_difference (services_backup services_current : List Rec)
    (ignore_suffix : Bool) : DiffReport :=
  let bdict0 := buildDict services_backup
  let cdict0 := buildDict services_current
  let bdict := if ignore_suffix then normDict bdict0 else bdict0
  let cdict := if ignore_suffix then normDict cdict0 else cdict0
  { changed := tolerantChanged bdict cdict
    deleted_services := (valuesOf bdict).filter
      (fun service => !(dmem cdict (dgetD service "Name")))
    new_services := (valuesOf cdict).filter
      (fun service => !(dmem bdict (dgetD service "Name"))) }

/-- Result of one `Set-Service` subprocess run (the `apply` collaborator
of the restore executor): its exit code and captured stderr. -/
structure ApplyResult where
  returncode : Int
  stderr : String

/-- The observable state of the restore loop: the trace of `Set-Service`
invocations (name, startup type), in order, and the failures reported by
the `returncode != 0` branch (name, stderr). -/
structure RestoreState where
  calls : List (String × String)
  failures : List (String × String)
deriving DecidableEq

/-- The loop of `Program.restore_services`, lines 44–52, over the loaded
snapshot: run `Set-Service -Name … -StartupType …` for every record; when
the command fails, report that service's name and stderr and continue with
the next record. -/
def restore_services (services : List Rec) (apply : String → String → ApplyResult) :
    RestoreState :=
  services.foldl (fun st service =>
    let res := apply (dgetD service "Name") (dgetD service "StartType")
    let st1 : RestoreState :=
      { st with calls := st.calls ++ [(dgetD service "Name", dgetD service "StartType")] }
    if res.returncode ≠ 0 then
      { st1 with failures := st1.failures ++ [(dgetD service "Name", res.stderr)] }
    else st1)
    ⟨[], []⟩

/-- Modelled from the spec (§4.3 step 3), for the refinement claim about
the tolerant diff's classification: a changed-entry is a copy of the live
record's fields in which every field whose value differs from the backup's
is replaced by the string `"<old value> -> <new value>"`. -/
def specOverlay (serv_bac serv_cur : Rec) : Rec :=
  serv_cur.map (fun p =>
    if p.2 == dgetD serv_bac p.1 then p
    else (p.1, dgetD serv_bac p.1 ++ " -> " ++ p.2))

/-- Modelled from the spec (§4.3 step 3), for the refinement claim about
the tolerant diff: the per-live-record classification — no entry when the
name has no backup entry, when the records are fully equal, or when only
fields other than `StartType` differ; otherwise the overlay entry. -/
def specClassify (bdict : List (String × Rec)) (serv_cur : Rec) : Option Rec :=
  match dlookup bdict (dgetD serv_cur "Name") with
  | none => none
  | some serv_bac =>
    if dictEq serv_cur serv_bac then none
    else if dgetD serv_cur "StartType" == dgetD serv_bac "StartType" then none
    else some (specOverlay serv_bac serv_cur)

/-- Sample record: service `A`, automatic start. -/
def sampleA : Rec := [("Name", "A"), ("DisplayName", "disp A"), ("StartType", "Automatic")]

/-- Sample record: service `A` with its startup type drifted to `Disabled`. -/
def sampleADis : Rec := [("Name", "A"), ("DisplayName", "disp A"), ("StartType", "Disabled")]

/-- Sample record: service `B`, manual start. -/
def sampleB : Rec := [("Name", "B"), ("DisplayName", "disp B"), ("StartType", "Manual")]

/-- Sample record lacking the required `StartType` key. -/
def sampleBMissing : Rec := [("Name", "B"), ("DisplayName", "disp B")]

/-- Sample record with the same name as `sampleA` but different fields. -/
def sampleADup : Rec := [("Name", "A"), ("DisplayName", "disp Z"), ("StartType", "Manual")]

/-- Sample record carrying an extra, non-persisted key. -/
def sampleExtra : Rec :=
  [("Name", "C"), ("DisplayName", "disp C"), ("StartType", "Automatic"), ("Status", "Running")]

/-- Suffixed instance `x_a` of the logical service `x` (display name `A`). -/
def cexXa : Rec := [("Name", "x_a"), ("DisplayName", "A"), ("StartType", "Automatic")]

/-- Service `y` (display name `B`). -/
def cexY : Rec := [("Name", "y"), ("DisplayName", "B"), ("StartType", "Automatic")]

/-- Suffixed instance `x_b` of the logical service `x` (display name `C`). -/
def cexXb : Rec := [("Name", "x_b"), ("DisplayName", "C"), ("StartType", "Automatic")]

/-- Backup record of service `b` (display name `B`). -/
def cexBb : Rec := [("Name", "b"), ("DisplayName", "B"), ("StartType", "Automatic")]

/-- Backup record of service `a`, whose display name was `Z` at backup time. -/
def cexBz : Rec := [("Name", "a"), ("DisplayName", "Z"), ("StartType", "Automatic")]

/-- Live record of service `a`: renamed to display name `A` and disabled. -/
def cexCa : Rec := [("Name", "a"), ("DisplayName", "A"), ("StartType", "Disabled")]

/-- Live record of service `b`: disabled. -/
def cexCb : Rec := [("Name", "b"), ("DisplayName", "B"), ("StartType", "Disabled")]

/-! ### Basic association-list dictionary lemmas -/

theorem dlookup_cons {α : Type} (p : String × α) (d : List (String × α)) (k : String) :
    dlookup (p :: d) k = if p.1 == k then some p.2 else dlookup d k := by
  cases h : p.1 == k <;> simp [dlookup, List.find?_cons, h]

theorem keysOf_cons {α : Type} (p : String × α) (d : List (String × α)) :
    keysOf (p :: d) = p.1 :: keysOf d := rfl

theorem dmem_iff_mem_keysOf {α : Type} {d : List (String × α)} {k : String} :
    dmem d k = true ↔ k ∈ keysOf d := by
  induction d with
  | nil => simp [dmem, dlookup, keysOf]
  | cons p d ih =>
    rw [dmem, dlookup_cons, keysOf_cons]
    by_cases hp : p.1 == k
    · have hpk : p.1 = k := by simpa using hp
      simp [hp, hpk]
    · rw [if_neg hp]
      have hpk : p.1 ≠ k := by simpa using hp
      rw [show ((dlookup d k).isSome = true) = (dmem d k = true) from rfl, ih,
        List.mem_cons]
      constructor
      · exact fun h => Or.inr h
      · rintro (h | h)
        · exact absurd h.symm hpk
        · exact h

theorem dmem_eq_false_iff {α : Type} {d : List (String × α)} {k : String} :
    dmem d k = false ↔ k ∉ keysOf d := by
  rw [← dmem_iff_mem_keysOf, Bool.not_eq_true, Bool.eq_false_iff, ne_eq, Bool.not_eq_true]

theorem dlookup_none_of_dmem_false {α : Type} {d : List (String × α)} {k : String}
    (h : dmem d k = false) : dlookup d k = none := by
  cases hx : dlookup d k with
  | none => rfl
  | some w =>
    rw [dmem, hx] at h
    simp at h

theorem dlookup_mem {α : Type} {d : List (String × α)} {k : String} {v : α}
    (h : dlookup d k = some v) : (k, v) ∈ d := by
  simp only [dlookup, Option.map_eq_some'] at h
  obtain ⟨p, hp, hv⟩ := h
  have hm := List.mem_of_find?_eq_some hp
  have hk : p.1 = k := by simpa using List.find?_some hp
  have he : p = (k, v) := by
    obtain ⟨a, b⟩ := p
    simp only at hk hv
    rw [hk, hv]
  rwa [he] at hm

theorem dlookup_eq_some_of_mem_nodup {α : Type} {d : List (String × α)} {k : String} {v : α}
    (hnd : (keysOf d).Nodup) (hm : (k, v) ∈ d) : dlookup d k = some v := by
  induction d with
  | nil => simp at hm
  | cons p d ih =>
    rw [keysOf_cons] at hnd
    obtain ⟨h1, h2⟩ := List.nodup_cons.mp hnd
    rcases List.mem_cons.mp hm with h | h
    · rw [← h, dlookup_cons]
      simp
    · have hk : k ∈ keysOf d := by
        simp only [keysOf]
        exact List.mem_map.mpr ⟨(k, v), h, rfl⟩
      rw [dlookup_cons, if_neg ?hneg]
      case hneg =>
        simp only [beq_iff_eq]
        exact fun he => h1 (he ▸ hk)
      exact ih h2 h

theorem pyInsert_of_not_mem {α : Type} {d : List (String × α)} {k : String} (v : α)
    (h : dmem d k = false) : pyInsert d k v = d ++ [(k, v)] := by
  simp [pyInsert, h]

theorem pyInsert_of_mem {α : Type} {d : List (String × α)} {k : String} (v : α)
    (h : dmem d k = true) : pyInsert d k v = d.map (fun p => if p.1 == k then (k, v) else p) := by
  simp [pyInsert, h]

theorem keysOf_pyInsert_of_mem {α : Type} {d : List (String × α)} {k : String} (v : α)
    (h : dmem d k = true) : keysOf (pyInsert d k v) = keysOf d := by
  rw [pyInsert_of_mem v h]
  simp only [keysOf, List.map_map]
  apply List.map_congr_left
  intro p _
  by_cases hp : (p.1 == k) = true
  · have hpk : p.1 = k := by simpa using hp
    simp only [Function.comp_apply, if_pos hp]
    exact hpk.symm
  · simp only [Function.comp_apply, if_neg hp]

theorem keysOf_pyInsert_of_not_mem {α : Type} {d : List (String × α)} {k : String} (v : α)
    (h : dmem d k = false) : keysOf (pyInsert d k v) = keysOf d ++ [k] := by
  rw [pyInsert_of_not_mem v h]
  simp [keysOf]

theorem nodup_keysOf_pyInsert {α : Type} {d : List (String × α)} {k : String} (v : α)
    (h : (keysOf d).Nodup) : (keysOf (pyInsert d k v)).Nodup := by
  cases hm : dmem d k
  · rw [keysOf_pyInsert_of_not_mem v hm]
    have : k ∉ keysOf d := dmem_eq_false_iff.mp hm
    simp [List.nodup_append, h, this]
  · rwa [keysOf_pyInsert_of_mem v hm]

theorem mem_pyInsert {α : Type} {d : List (String × α)} {k : String} {v : α} {p : String × α}
    (h : p ∈ pyInsert d k v) : p ∈ d ∨ p = (k, v) := by
  cases hm : dmem d k
  · rw [pyInsert_of_not_mem v hm] at h
    rcases List.mem_append.mp h with h | h
    · exact Or.inl h
    · simp at h
      exact Or.inr h
  · rw [pyInsert_of_mem v hm] at h
    rcases List.mem_map.mp h with ⟨q, hq, he⟩
    by_cases hqk : q.1 == k
    · rw [if_pos hqk] at he
      exact Or.inr he.symm
    · rw [if_neg hqk] at he
      exact Or.inl (he ▸ hq)

theorem dlookup_append {α : Type} (d₁ d₂ : List (String × α)) (k : String) :
    dlookup (d₁ ++ d₂) k = (dlookup d₁ k).or (dlookup d₂ k) := by
  induction d₁ with
  | nil => simp [dlookup]
  | cons p d ih =>
    rw [List.cons_append, dlookup_cons, dlookup_cons]
    cases h : p.1 == k <;> simp [ih]

theorem dlookup_map_replace_self {α : Type} (d : List (String × α)) (k : String) (v : α)
    (hm : dmem d k = true) :
    dlookup (d.map (fun p => if p.1 == k then (k, v) else p)) k = some v := by
  induction d with
  | nil => simp [dmem, dlookup] at hm
  | cons p d ih =>
    rw [List.map_cons]
    by_cases hp : p.1 == k
    · rw [if_pos hp, dlookup_cons]
      simp
    · rw [if_neg hp, dlookup_cons, if_neg hp]
      apply ih
      rw [dmem, dlookup_cons, if_neg hp] at hm
      exact hm

theorem dlookup_map_replace_ne {α : Type} (d : List (String × α)) {k k' : String} (v : α)
    (h : k' ≠ k) :
    dlookup (d.map (fun p => if p.1 == k then (k, v) else p)) k' = dlookup d k' := by
  induction d with
  | nil => simp [dlookup]
  | cons p d ih =>
    rw [List.map_cons]
    by_cases hp : p.1 == k
    · have hpk : p.1 = k := by simpa using hp
      rw [if_pos hp, dlookup_cons, dlookup_cons,
        if_neg (by simpa using fun he => h he.symm),
        if_neg (by simpa [hpk] using fun he => h he.symm)]
      exact ih
    · rw [if_neg hp, dlookup_cons, dlookup_cons]
      by_cases hpk' : p.1 == k'
      · simp [hpk']
      · rw [if_neg hpk', if_neg hpk']
        exact ih

theorem dlookup_pyInsert_self {α : Type} (d : List (String × α)) (k : String) (v : α) :
    dlookup (pyInsert d k v) k = some v := by
  cases hm : dmem d k
  · rw [pyInsert_of_not_mem v hm, dlookup_append, dlookup_none_of_dmem_false hm]
    simp [dlookup_cons]
  · rw [pyInsert_of_mem v hm]
    exact dlookup_map_replace_self d k v hm

theorem dlookup_pyInsert_of_ne {α : Type} (d : List (String × α)) {k k' : String} (v : α)
    (h : k' ≠ k) : dlookup (pyInsert d k v) k' = dlookup d k' := by
  cases hm : dmem d k
  · rw [pyInsert_of_not_mem v hm, dlookup_append, dlookup_cons]
    rw [if_neg (by simpa using fun he => h he.symm)]
    cases dlookup d k' <;> simp [dlookup]
  · rw [pyInsert_of_mem v hm]
    exact dlookup_map_replace_ne d v h

/-! ### `buildDict` and `dictEq` lemmas -/

theorem foldl_fixed {α β : Type} {f : β → α → β} {l : List α} {a : β}
    (h : ∀ acc x, x ∈ l → f acc x = acc) : l.foldl f a = a := by
  induction l generalizing a with
  | nil => rfl
  | cons x l ih =>
    rw [List.foldl_cons, h a x (List.mem_cons_self x l)]
    exact ih (fun acc y hy => h acc y (List.mem_cons_of_mem x hy))

theorem mem_buildDict_aux {recs : List Rec} {d : List (String × Rec)} {p : String × Rec}
    (h : p ∈ recs.foldl (fun d r => pyInsert d (dgetD r "Name") r) d) :
    p ∈ d ∨ (p.1 = dgetD p.2 "Name" ∧ p.2 ∈ recs) := by
  induction recs generalizing d with
  | nil => exact Or.inl h
  | cons r rs ih =>
    rw [List.foldl_cons] at h
    rcases ih h with h' | h'
    · rcases mem_pyInsert h' with h2 | h2
      · exact Or.inl h2
      · refine Or.inr ⟨?_, ?_⟩
        · rw [h2]
        · rw [h2]
          exact List.mem_cons_self r rs
    · exact Or.inr ⟨h'.1, List.mem_cons_of_mem r h'.2⟩

theorem mem_buildDict_spec {recs : List Rec} {p : String × Rec} (h : p ∈ buildDict recs) :
    p.1 = dgetD p.2 "Name" ∧ p.2 ∈ recs := by
  rcases mem_buildDict_aux (d := []) h with h' | h'
  · simp at h'
  · exact h'

theorem nodup_keysOf_buildDict_aux (recs : List Rec) (d : List (String × Rec))
    (hd : (keysOf d).Nodup) :
    (keysOf (recs.foldl (fun d r => pyInsert d (dgetD r "Name") r) d)).Nodup := by
  induction recs generalizing d with
  | nil => exact hd
  | cons r rs ih =>
    rw [List.foldl_cons]
    exact ih _ (nodup_keysOf_pyInsert _ hd)

theorem nodup_keysOf_buildDict (recs : List Rec) : (keysOf (buildDict recs)).Nodup :=
  nodup_keysOf_buildDict_aux recs [] (by simp [keysOf])

theorem mem_keysOf_pyInsert {α : Type} {d : List (String × α)} {k k' : String} {v : α} :
    k' ∈ keysOf (pyInsert d k v) ↔ k' ∈ keysOf d ∨ k' = k := by
  cases hm : dmem d k
  · rw [keysOf_pyInsert_of_not_mem v hm]
    simp
  · rw [keysOf_pyInsert_of_mem v hm]
    constructor
    · exact fun h => Or.inl h
    · rintro (h | h)
      · exact h
      · exact h ▸ dmem_iff_mem_keysOf.mp hm

theorem mem_keysOf_buildDict_aux {recs : List Rec} {d : List (String × Rec)} {k : String} :
    k ∈ keysOf (recs.foldl (fun d r => pyInsert d (dgetD r "Name") r) d) ↔
      k ∈ keysOf d ∨ ∃ r ∈ recs, dgetD r "Name" = k := by
  induction recs generalizing d with
  | nil => simp
  | cons r rs ih =>
    rw [List.foldl_cons, ih, mem_keysOf_pyInsert]
    constructor
    · rintro ((h | h) | h)
      · exact Or.inl h
      · exact Or.inr ⟨r, List.mem_cons_self r rs, h.symm⟩
      · obtain ⟨q, hq, hqk⟩ := h
        exact Or.inr ⟨q, List.mem_cons_of_mem r hq, hqk⟩
    · rintro (h | ⟨q, hq, hqk⟩)
      · exact Or.inl (Or.inl h)
      · rcases List.mem_cons.mp hq with h' | h'
        · exact Or.inl (Or.inr (h' ▸ hqk).symm)
        · exact Or.inr ⟨q, h', hqk⟩

theorem mem_keysOf_buildDict {recs : List Rec} {k : String} :
    k ∈ keysOf (buildDict recs) ↔ ∃ r ∈ recs, dgetD r "Name" = k := by
  rw [buildDict, mem_keysOf_buildDict_aux]
  simp [keysOf]

theorem dictEq_refl {r : Rec} (h : (keysOf r).Nodup) : dictEq r r = true := by
  have hall : ∀ p ∈ r, (dlookup r p.1 == some p.2) = true := by
    intro p hp
    rw [dlookup_eq_some_of_mem_nodup h hp]
    simp
  rw [dictEq, Bool.and_eq_true]
  exact ⟨List.all_eq_true.mpr hall, List.all_eq_true.mpr hall⟩

theorem exists_key_of_mem_valuesOf {α : Type} {d : List (String × α)} {r : α}
    (h : r ∈ valuesOf d) : ∃ k, (k, r) ∈ d := by
  obtain ⟨p, hp, he⟩ := List.mem_map.mp h
  exact ⟨p.1, by rwa [show (p.1, r) = p from by rw [← he]]⟩

/-! ### C6: tolerant diff of a snapshot against itself is empty -/

/-- C6 — No-change idempotence: for every snapshot `S` (a list of genuine
Python records, i.e. with duplicate-free keys), the tolerant diff of `S`
against itself with `ignore_suffix = false` has an empty `changed` list,
an empty `deleted_services` list and an empty `new_services` list. -/
theorem tolerant_diff_self_empty (S : List Rec)
    (h : ∀ r ∈ S, (keysOf r).Nodup) :
    print_backup_difference S S false = ⟨[], [], []⟩ := by
  have hD := nodup_keysOf_buildDict S
  have hch : tolerantChanged (buildDict S) (buildDict S) = [] := by
    apply foldl_fixed
    intro acc r hr
    obtain ⟨k, hk⟩ := exists_key_of_mem_valuesOf hr
    obtain ⟨hk1, hk2⟩ := mem_buildDict_spec hk
    have hl : dlookup (buildDict S) (dgetD r "Name") = some r := by
      rw [show dgetD r "Name" = k from hk1.symm]
      exact dlookup_eq_some_of_mem_nodup hD hk
    rw [hl]
    simp [dictEq_refl (h r hk2)]
  have hmemD : ∀ s ∈ valuesOf (buildDict S), dmem (buildDict S) (dgetD s "Name") = true := by
    intro s hs
    obtain ⟨k, hk⟩ := exists_key_of_mem_valuesOf hs
    obtain ⟨hk1, _⟩ := mem_buildDict_spec hk
    rw [dmem_iff_mem_keysOf, show dgetD s "Name" = k from hk1.symm]
    simp only [keysOf]
    exact List.mem_map.mpr ⟨(k, s), hk, rfl⟩
  have hfil : (valuesOf (buildDict S)).filter
      (fun service => !(dmem (buildDict S) (dgetD service "Name"))) = [] := by
    rw [List.filter_eq_nil_iff]
    intro s hs
    simp [hmemD s hs]
  simp only [print_backup_difference, Bool.false_eq_true, if_false, hch, hfil]

/-- Witness for C6 at a concrete snapshot. -/
theorem tolerant_diff_self_empty_witness :
    print_backup_difference
      [[("Name", "A"), ("DisplayName", "disp A"), ("StartType", "Automatic")]]
      [[("Name", "A"), ("DisplayName", "disp A"), ("StartType", "Automatic")]]
      false = ⟨[], [], []⟩ :=
  tolerant_diff_self_empty _ (by decide)

/-! ### C2: the strict diff fails on a count mismatch -/

/-- C2 — Strict diff count guard: whenever the two snapshots have unequal
lengths, `configurations_difference` fails with the count-mismatch error
carrying both counts (the current count first, the backup count second, as
in the `ValueError` message), and produces no diff output. -/
theorem strict_diff_count_guard (services_old services_new : List Rec)
    (h : services_old.length ≠ services_new.length) :
    configurations_difference services_old services_new =
      .error (.countMismatch services_new.length services_old.length) := by
  simp [configurations_difference, Ne.symm h]

/-- Witness for C2 at a concrete pair of snapshots of lengths 1 and 0. -/
theorem strict_diff_count_guard_witness :
    configurations_difference
      [[("Name", "A"), ("DisplayName", "a"), ("StartType", "Automatic")]] [] =
      .error (.countMismatch 0 1) :=
  strict_diff_count_guard _ _ (by decide)

/-! ### C9: restore attempts every service and records failures -/

theorem restore_foldl_aux (apply : String → String → ApplyResult)
    (services : List Rec) (st : RestoreState) :
    services.foldl (fun st service =>
      let res := apply (dgetD service "Name") (dgetD service "StartType")
      let st1 : RestoreState :=
        { st with calls := st.calls ++ [(dgetD service "Name", dgetD service "StartType")] }
      if res.returncode ≠ 0 then
        { st1 with failures := st1.failures ++ [(dgetD service "Name", res.stderr)] }
      else st1) st =
    ⟨st.calls ++ services.map (fun s => (dgetD s "Name", dgetD s "StartType")),
      st.failures ++ services.filterMap (fun s =>
        if (apply (dgetD s "Name") (dgetD s "StartType")).returncode ≠ 0
        then some (dgetD s "Name", (apply (dgetD s "Name") (dgetD s "StartType")).stderr)
        else none)⟩ := by
  induction services generalizing st with
  | nil =>
    cases st
    simp
  | cons s ss ih =>
    rw [List.foldl_cons, ih]
    by_cases h : (apply (dgetD s "Name") (dgetD s "StartType")).returncode ≠ 0
    · simp [h]
    · simp [h]

/-- C9 — Restore never aborts: for every snapshot and every `apply`
collaborator, the restore loop runs the `Set-Service` command exactly once
per record, in snapshot order and regardless of any failures (`calls` is
the full map over the snapshot, independent of `apply`'s results), and the
recorded failures are exactly the records whose command exited non-zero,
each with that service's name and the captured stderr. -/
theorem restore_attempts_all_and_collects_failures
    (services : List Rec) (apply : String → String → ApplyResult) :
    (restore_services services apply).calls =
      services.map (fun s => (dgetD s "Name", dgetD s "StartType")) ∧
    (restore_services services apply).failures =
      services.filterMap (fun s =>
        if (apply (dgetD s "Name") (dgetD s "StartType")).returncode ≠ 0
        then some (dgetD s "Name", (apply (dgetD s "Name") (dgetD s "StartType")).stderr)
        else none) := by
  rw [restore_services, restore_foldl_aux]
  simp

/-! ### The display-name order is total and transitive -/

theorem charListLe_total (a b : List Char) :
    charListLe a b = true ∨ charListLe b a = true := by
  induction a generalizing b with
  | nil => exact Or.inl rfl
  | cons c cs ih =>
    cases b with
    | nil => exact Or.inr rfl
    | cons d ds =>
      by_cases h1 : c.toNat < d.toNat
      · exact Or.inl (by simp [charListLe, h1])
      · by_cases h2 : d.toNat < c.toNat
        · exact Or.inr (by simp [charListLe, h2])
        · rcases ih ds with h | h
          · exact Or.inl (by simp [charListLe, h1, h2, h])
          · exact Or.inr (by simp [charListLe, h1, h2, h])

theorem charListLe_trans {a b c : List Char}
    (h1 : charListLe a b = true) (h2 : charListLe b c = true) :
    charListLe a c = true := by
  induction a generalizing b c with
  | nil => rfl
  | cons x xs ih =>
    cases b with
    | nil => simp [charListLe] at h1
    | cons y ys =>
      cases c with
      | nil => simp [charListLe] at h2
      | cons z zs =>
        rw [charListLe] at h1 h2 ⊢
        by_cases hxy : x.toNat < y.toNat
        · by_cases hyz : y.toNat < z.toNat
          · rw [if_pos (Nat.lt_trans hxy hyz)]
          · by_cases hzy : z.toNat < y.toNat
            · rw [if_neg hyz, if_pos hzy] at h2
              exact absurd h2 (by simp)
            · have hyz' : y.toNat = z.toNat := by omega
              rw [if_pos (by omega : x.toNat < z.toNat)]
        · by_cases hyx : y.toNat < x.toNat
          · rw [if_neg hxy, if_pos hyx] at h1
            exact absurd h1 (by simp)
          · rw [if_neg hxy, if_neg hyx] at h1
            by_cases hyz : y.toNat < z.toNat
            · rw [if_pos (by omega : x.toNat < z.toNat)]
            · by_cases hzy : z.toNat < y.toNat
              · rw [if_neg hyz, if_pos hzy] at h2
                exact absurd h2 (by simp)
              · rw [if_neg hyz, if_neg hzy] at h2
                rw [if_neg (by omega : ¬x.toNat < z.toNat),
                  if_neg (by omega : ¬z.toNat < x.toNat)]
                exact ih h1 h2

theorem dnle_total (a b : Rec) : dnle a b = true ∨ dnle b a = true :=
  charListLe_total _ _

theorem dnle_trans {a b c : Rec} (h1 : dnle a b = true) (h2 : dnle b c = true) :
    dnle a c = true :=
  charListLe_trans h1 h2

theorem pySortByDN_perm (recs : List Rec) : (pySortByDN recs).Perm recs :=
  List.perm_insertionSort _ recs

theorem pySortByDN_sorted (recs : List Rec) :
    (pySortByDN recs).Pairwise (fun a b => dnle a b = true) := by
  haveI : IsTotal Rec (fun a b => dnle a b = true) := ⟨dnle_total⟩
  haveI : IsTrans Rec (fun a b => dnle a b = true) := ⟨fun _ _ _ => dnle_trans⟩
  exact List.sorted_insertionSort _ recs

/-! ### Load lemmas -/

theorem firstMissing_eq_none_iff {recs : List Rec} :
    firstMissing recs = none ↔ ∀ r ∈ recs, ∀ k ∈ only_save_rows, dmem r k = true := by
  rw [firstMissing, List.findSome?_eq_none_iff]
  constructor
  · intro h r hr k hk
    have h2 := h r hr
    rw [Option.map_eq_none'] at h2
    have h3 := List.find?_eq_none.mp h2 k hk
    simpa using h3
  · intro h r hr
    rw [Option.map_eq_none', List.find?_eq_none]
    intro k hk
    simp [h r hr k hk]

theorem firstMissing_some_spec {recs : List Rec} {k : String} {r : Rec}
    (h : firstMissing recs = some (k, r)) :
    r ∈ recs ∧ k ∈ only_save_rows ∧ dmem r k = false := by
  rw [firstMissing] at h
  obtain ⟨a, ha, hfa⟩ := List.exists_of_findSome?_eq_some h
  rw [Option.map_eq_some'] at hfa
  obtain ⟨k', hk', he⟩ := hfa
  have hk : k' = k := congrArg Prod.fst he
  have hr : a = r := congrArg Prod.snd he
  subst hk hr
  refine ⟨ha, List.mem_of_find?_eq_some hk', ?_⟩
  have := List.find?_some hk'
  simpa using this

theorem load_ok_of_valid {v : PVal} {recs : List Rec} (hv : toRecs v = some recs)
    (hm : firstMissing recs = none) :
    load_services_from_file v = .ok (pySortByDN recs) := by
  simp only [load_services_from_file, hv, hm]

theorem toRecs_map_vdict (recs : List Rec) :
    toRecs (.vlist (recs.map .vdict)) = some recs := by
  rw [toRecs]
  induction recs with
  | nil => rfl
  | cons r rs ih =>
    rw [List.map_cons, List.mapM_cons, ih]
    rfl

/-! ### C3: load validation -/

/-- C3 — Load validation: `load_services_from_file` fails with the
malformed-snapshot error when the top-level parsed value is not a list of
record mappings; it fails with `missingField k r` — where `r` is a record
of the input lacking the required key `k ∈ {Name, DisplayName, StartType}`
— whenever some record lacks a required key; and when it succeeds, every
record had its required keys and the output is a permutation of the parsed
records, non-decreasing by `DisplayName`.  Failure is a bare `Except.error`,
so no partial list is ever returned. -/
theorem load_validation (v : PVal) :
    (toRecs v = none → load_services_from_file v = .error .malformed) ∧
    (∀ recs, toRecs v = some recs →
      (∃ r ∈ recs, ∃ k ∈ only_save_rows, dmem r k = false) →
      ∃ k r, r ∈ recs ∧ k ∈ only_save_rows ∧ dmem r k = false ∧
        load_services_from_file v = .error (.missingField k r)) ∧
    (∀ recs out, toRecs v = some recs → load_services_from_file v = .ok out →
      (∀ r ∈ recs, ∀ k ∈ only_save_rows, dmem r k = true) ∧
      out.Perm recs ∧ out.Pairwise (fun a b => dnle a b = true)) := by
  refine ⟨?_, ?_, ?_⟩
  · intro h
    simp only [load_services_from_file, h]
  · intro recs hv hex
    cases hfm : firstMissing recs with
    | none =>
      obtain ⟨r, hr, k, hk, hmem⟩ := hex
      have := firstMissing_eq_none_iff.mp hfm r hr k hk
      rw [hmem] at this
      cases this
    | some kr =>
      obtain ⟨k, r⟩ := kr
      obtain ⟨h1, h2, h3⟩ := firstMissing_some_spec hfm
      exact ⟨k, r, h1, h2, h3, by simp only [load_services_from_file, hv, hfm]⟩
  · intro recs out hv hok
    cases hfm : firstMissing recs with
    | some kr =>
      simp only [load_services_from_file, hv, hfm] at hok
      cases hok
    | none =>
      rw [load_ok_of_valid hv hfm] at hok
      have hout : out = pySortByDN recs := (Except.ok.inj hok).symm
      subst hout
      exact ⟨firstMissing_eq_none_iff.mp hfm, pySortByDN_perm recs, pySortByDN_sorted recs⟩

/-- Witness for C3: a non-list input is malformed; an input whose second
record lacks `StartType` fails with exactly that key and record; a valid
out-of-order input loads to its `DisplayName`-sorted permutation. -/
theorem load_validation_witness :
    load_services_from_file (.vstr "x") = .error .malformed ∧
    (∃ k r, r ∈ [sampleA, sampleBMissing] ∧ k ∈ only_save_rows ∧ dmem r k = false ∧
      load_services_from_file (.vlist [.vdict sampleA, .vdict sampleBMissing]) =
        .error (.missingField k r)) ∧
    ((∀ r ∈ [sampleB, sampleA], ∀ k ∈ only_save_rows, dmem r k = true) ∧
      List.Perm [sampleA, sampleB] [sampleB, sampleA] ∧
      List.Pairwise (fun a b => dnle a b = true) [sampleA, sampleB]) :=
  ⟨(load_validation (.vstr "x")).1 rfl,
    (load_validation (.vlist [.vdict sampleA, .vdict sampleBMissing])).2.1
      [sampleA, sampleBMissing] rfl (by decide),
    (load_validation (.vlist [.vdict sampleB, .vdict sampleA])).2.2
      [sampleB, sampleA] [sampleA, sampleB] rfl rfl⟩

/-! ### C5: save / load round-trip -/

/-- C5 — Round-trip: for every snapshot whose records carry the three
persisted fields, loading the saved file succeeds and returns exactly the
records of the snapshot (a permutation — nothing added, lost or altered),
ordered non-decreasingly by `DisplayName`. -/
theorem load_backup_round_trip (S : List Rec)
    (h : ∀ r ∈ S, ∀ k ∈ only_save_rows, dmem r k = true) :
    ∃ out, load_services_from_file (backup_services S) = .ok out ∧
      out.Perm S ∧ out.Pairwise (fun a b => dnle a b = true) := by
  have hv : toRecs (backup_services S) = some S := toRecs_map_vdict S
  have hfm : firstMissing S = none := firstMissing_eq_none_iff.mpr h
  exact ⟨pySortByDN S, load_ok_of_valid hv hfm, pySortByDN_perm S, pySortByDN_sorted S⟩

/-- Witness for C5 at a concrete two-record snapshot (given out of order,
so the round trip also re-sorts). -/
theorem load_backup_round_trip_witness :
    ∃ out, load_services_from_file (backup_services [sampleB, sampleA]) = .ok out ∧
      out.Perm [sampleB, sampleA] ∧ out.Pairwise (fun a b => dnle a b = true) :=
  load_backup_round_trip [sampleB, sampleA] (by decide)

/-! ### C10: load tolerates and preserves extra fields -/

/-- C10 — Extra fields: validation checks only that the three required
keys are present, so an input whose records carry additional keys loads
successfully, and every record is preserved verbatim — keys, values and
their order within the record — with only the list order changed (the
output is a `DisplayName`-sorted permutation of the parsed records). -/
theorem load_preserves_extra_fields (v : PVal) (recs : List Rec)
    (hv : toRecs v = some recs)
    (hk : ∀ r ∈ recs, ∀ k ∈ only_save_rows, dmem r k = true) :
    ∃ out, load_services_from_file v = .ok out ∧ out.Perm recs ∧
      out.Pairwise (fun a b => dnle a b = true) := by
  have hfm : firstMissing recs = none := firstMissing_eq_none_iff.mpr hk
  exact ⟨pySortByDN recs, load_ok_of_valid hv hfm, pySortByDN_perm recs, pySortByDN_sorted recs⟩

/-- Witness for C10: a record with the extra key `Status` loads, `Status`
and its value intact. -/
theorem load_preserves_extra_fields_witness :
    ∃ out, load_services_from_file (.vlist [.vdict sampleExtra]) = .ok out ∧
      out.Perm [sampleExtra] ∧ out.Pairwise (fun a b => dnle a b = true) :=
  load_preserves_extra_fields _ [sampleExtra] rfl (by decide)

/-! ### C4: there is no duplicate-name check in load -/

/-- Counterexample to C4: an input with two records both named `"A"` loads
successfully, and the returned snapshot contains both — `load` does not
treat duplicate names as an error. -/
theorem load_accepts_duplicate_names :
    load_services_from_file (.vlist [.vdict sampleA, .vdict sampleADup]) =
      .ok [sampleA, sampleADup] ∧
    dgetD sampleA "Name" = dgetD sampleADup "Name" := by
  constructor
  · rfl
  · rfl

/-- C4 as amended: `load` performs no duplicate-name check — every input
that is a list of records carrying the three required keys loads
successfully regardless of repeated names, and the multiset of names
(duplicates included) is preserved in the output; names are only collapsed
later, last write wins, when the diff builds its name-keyed dicts. -/
theorem load_no_duplicate_name_check (v : PVal) (recs : List Rec)
    (hv : toRecs v = some recs)
    (hk : ∀ r ∈ recs, ∀ k ∈ only_save_rows, dmem r k = true) :
    ∃ out, load_services_from_file v = .ok out ∧
      (out.map (fun r => dgetD r "Name")).Perm (recs.map (fun r => dgetD r "Name")) := by
  have hfm : firstMissing recs = none := firstMissing_eq_none_iff.mpr hk
  exact ⟨pySortByDN recs, load_ok_of_valid hv hfm, (pySortByDN_perm recs).map _⟩

/-- Witness for the amended C4 at the duplicate-name input itself. -/
theorem load_no_duplicate_name_check_witness :
    ∃ out, load_services_from_file (.vlist [.vdict sampleA, .vdict sampleADup]) = .ok out ∧
      (out.map (fun r => dgetD r "Name")).Perm
        ([sampleA, sampleADup].map (fun r => dgetD r "Name")) :=
  load_no_duplicate_name_check _ [sampleA, sampleADup] rfl (by decide)

/-! ### C7: name normalization -/

theorem endMatch_of_all_class (cs : List Char) (hl : cs.length ≤ 10)
    (hs : ∀ c ∈ cs, isSuffixChar c = true) : endMatch cs = some [] := by
  rw [endMatch, if_pos (by simp [hl, List.all_eq_true.mpr hs])]

theorem endMatch_of_newline (suf : List Char) (hl : suf.length ≤ 10)
    (hs : ∀ c ∈ suf, isSuffixChar c = true) :
    endMatch (suf ++ ['\n']) = some ['\n'] := by
  have hall : ((suf ++ ['\n']).all isSuffixChar) = false := by
    rw [Bool.eq_false_iff]
    intro hcontra
    exact absurd (List.all_eq_true.mp hcontra '\n' (by simp)) (by decide)
  rw [endMatch, if_neg (by simp [hall]),
    if_pos (by simp [List.getLast?_concat, List.dropLast_concat, hl,
      List.all_eq_true.mpr hs])]

theorem endMatch_some_decomp {cs lo : List Char} (h : endMatch cs = some lo) :
    ∃ suf, cs = suf ++ lo ∧ suf.length ≤ 10 ∧ (∀ c ∈ suf, isSuffixChar c = true) ∧
      (lo = [] ∨ lo = ['\n']) := by
  rw [endMatch] at h
  by_cases h1 : (decide (cs.length ≤ 10) && cs.all isSuffixChar) = true
  · rw [if_pos h1] at h
    have hlo : lo = [] := (Option.some.inj h).symm
    simp only [Bool.and_eq_true, decide_eq_true_eq] at h1
    exact ⟨cs, by simp [hlo], h1.1, List.all_eq_true.mp h1.2, Or.inl hlo⟩
  · rw [if_neg h1] at h
    by_cases h2 : (cs.getLast? == some '\n' && decide (cs.dropLast.length ≤ 10) &&
        cs.dropLast.all isSuffixChar) = true
    · rw [if_pos h2] at h
      have hlo : lo = ['\n'] := (Option.some.inj h).symm
      simp only [Bool.and_eq_true, beq_iff_eq, decide_eq_true_eq] at h2
      obtain ⟨⟨hlast, hlen⟩, hallc⟩ := h2
      have hne : cs ≠ [] := by
        intro he
        rw [he] at hlast
        cases hlast
      have hcs : cs = cs.dropLast ++ ['\n'] := by
        have hgl : cs.getLast hne = '\n' := by
          have := List.getLast?_eq_getLast cs hne
          rw [hlast] at this
          exact (Option.some.inj this).symm
        conv_lhs => rw [← List.dropLast_append_getLast hne]
        rw [hgl]
      exact ⟨cs.dropLast, by rw [hlo, ← hcs], hlen, List.all_eq_true.mp hallc, Or.inr hlo⟩
    · rw [if_neg h2] at h
      cases h

theorem endMatch_eq_none_of_underscore {cs : List Char} (h : '_' ∈ cs) :
    endMatch cs = none := by
  cases he : endMatch cs with
  | none => rfl
  | some lo =>
    exfalso
    obtain ⟨suf, hcs, _, hs, hlo⟩ := endMatch_some_decomp he
    rw [hcs] at h
    rcases List.mem_append.mp h with h | h
    · exact absurd (hs '_' h) (by decide)
    · rcases hlo with rfl | rfl
      · exact absurd h (by decide)
      · exact absurd h (by decide)

theorem stripSuffixAux_of_decomp (pre suf lo : List Char)
    (hs : ∀ c ∈ suf, isSuffixChar c = true) (hl : suf.length ≤ 10)
    (hlo : lo = [] ∨ lo = ['\n']) :
    stripSuffixAux (pre ++ '_' :: (suf ++ lo)) = some (pre ++ lo) := by
  induction pre with
  | nil =>
    have hm : endMatch (suf ++ lo) = some lo := by
      rcases hlo with rfl | rfl
      · rw [List.append_nil]
        exact endMatch_of_all_class suf hl hs
      · exact endMatch_of_newline suf hl hs
    rw [List.nil_append, stripSuffixAux]
    simp [hm]
  | cons c pre ih =>
    have hm : endMatch (pre ++ '_' :: (suf ++ lo)) = none :=
      endMatch_eq_none_of_underscore (by simp)
    have hif : (if c == '_' then endMatch (pre ++ '_' :: (suf ++ lo)) else none) = none := by
      by_cases hc : (c == '_') = true
      · rw [if_pos hc, hm]
      · rw [if_neg hc]
    rw [List.cons_append, stripSuffixAux]
    simp only [hif, ih]
    rfl

theorem stripSuffixAux_some_decomp {l res : List Char} (h : stripSuffixAux l = some res) :
    ∃ pre suf lo, l = pre ++ '_' :: (suf ++ lo) ∧ res = pre ++ lo ∧ suf.length ≤ 10 ∧
      (∀ c ∈ suf, isSuffixChar c = true) ∧ (lo = [] ∨ lo = ['\n']) := by
  induction l generalizing res with
  | nil => simp [stripSuffixAux] at h
  | cons c cs ih =>
    rw [stripSuffixAux] at h
    cases hm : (if c == '_' then endMatch cs else none) with
    | some lo =>
      simp only [hm] at h
      have hres : res = lo := (Option.some.inj h).symm
      by_cases hc : (c == '_') = true
      · rw [if_pos hc] at hm
        have hcu : c = '_' := by simpa using hc
        obtain ⟨suf, hcs, hl, hs, hlo⟩ := endMatch_some_decomp hm
        refine ⟨[], suf, lo, ?_, by simp [hres], hl, hs, hlo⟩
        rw [hcu, hcs]
        simp
      · rw [if_neg hc] at hm
        cases hm
    | none =>
      simp only [hm, Option.map_eq_some'] at h
      obtain ⟨a, ha, hres⟩ := h
      obtain ⟨pre, suf, lo, h1, h2, h3, h4, h5⟩ := ih ha
      exact ⟨c :: pre, suf, lo, by rw [h1, List.cons_append],
        by rw [← hres, h2, List.cons_append], h3, h4, h5⟩

/-- C7 — Name normalization: `normalize` performs the substitution of
`_[a-z0-9]{,10}$` exactly: when the name decomposes as a prefix, an
underscore and at most 10 class characters running to the end of the
string (or to just before a single trailing newline, which Python's `$`
also accepts and which survives the zero-width anchor), the match is
removed; otherwise the name is returned unchanged.  The decomposition,
when it exists, is unique: any earlier underscore is followed by the
matched one, which is neither a class character nor the final newline. -/
theorem normalize_spec (s : String) :
    (∀ pre suf, s.data = pre ++ '_' :: suf → suf.length ≤ 10 →
      (∀ c ∈ suf, isSuffixChar c = true) → normalize s = String.mk pre) ∧
    (∀ pre suf, s.data = pre ++ '_' :: (suf ++ ['\n']) → suf.length ≤ 10 →
      (∀ c ∈ suf, isSuffixChar c = true) → normalize s = String.mk (pre ++ ['\n'])) ∧
    ((¬ ∃ pre suf lo, s.data = pre ++ '_' :: (suf ++ lo) ∧ suf.length ≤ 10 ∧
        (∀ c ∈ suf, isSuffixChar c = true) ∧ (lo = [] ∨ lo = ['\n'])) →
      normalize s = s) := by
  refine ⟨?_, ?_, ?_⟩
  · intro pre suf hd hl hs
    have hd' : s.data = pre ++ '_' :: (suf ++ []) := by simpa using hd
    simp only [normalize, hd', stripSuffixAux_of_decomp pre suf [] hs hl (Or.inl rfl)]
    simp
  · intro pre suf hd hl hs
    simp only [normalize, hd, stripSuffixAux_of_decomp pre suf ['\n'] hs hl (Or.inr rfl)]
  · intro h
    cases hx : stripSuffixAux s.data with
    | none => simp only [normalize, hx]
    | some res =>
      obtain ⟨pre, suf, lo, h1, _, h3, h4, h5⟩ := stripSuffixAux_some_decomp hx
      exact absurd ⟨pre, suf, lo, h1, h3, h4, h5⟩ h

/-- Witness for C7: the claim's three examples, plus the trailing-newline
behaviour of Python's `$` — `"Foo_ab\n"` is stripped to `"Foo\n"`. -/
theorem normalize_spec_witness :
    normalize "Foo_ab12" = "Foo" ∧
    normalize "Foo_ab\n" = "Foo\n" ∧
    normalize "Foo_abcdefghijk" = "Foo_abcdefghijk" ∧
    normalize "Foo" = "Foo" :=
  ⟨(normalize_spec "Foo_ab12").1 ['F', 'o', 'o'] ['a', 'b', '1', '2']
      rfl (by decide) (by decide),
    (normalize_spec "Foo_ab\n").2.1 ['F', 'o', 'o'] ['a', 'b']
      rfl (by decide) (by decide),
    (normalize_spec "Foo_abcdefghijk").2.2 (by
      rintro ⟨pre, suf, lo, h1, h2, h3, h4⟩
      have hsome := stripSuffixAux_of_decomp pre suf lo h3 h2 h4
      rw [← h1] at hsome
      have hnone : stripSuffixAux (String.data "Foo_abcdefghijk") = none := by decide
      rw [hnone] at hsome
      cases hsome),
    (normalize_spec "Foo").2.2 (by
      rintro ⟨pre, suf, lo, h1, h2, h3, h4⟩
      have hsome := stripSuffixAux_of_decomp pre suf lo h3 h2 h4
      rw [← h1] at hsome
      have hnone : stripSuffixAux (String.data "Foo") = none := by decide
      rw [hnone] at hsome
      cases hsome)⟩

/-! ### C8: ordering of load and diff outputs -/

/-- Counterexample to C8 at two concrete, `DisplayName`-sorted,
duplicate-name-free snapshot pairs: (a) with `ignore_suffix = true`, the
normalized-name rebuild keeps the position of the first occurrence of a
collapsed name but the value of the last, so `deleted_services` comes out
in dict-insertion order (`C` before `B`), not display-name order; (b) with
`ignore_suffix = false`, a changed-entry's `DisplayName` field can itself
be an overlay string (`"Z -> A"`), so the `changed` list is not ordered by
the entries' display names.  The last three conjuncts certify that the
inputs themselves are sorted snapshots. -/
theorem diff_outputs_not_sorted :
    (¬ List.Pairwise (fun a b => dnle a b = true)
      (print_backup_difference [cexXa, cexY, cexXb] [] true).deleted_services) ∧
    (¬ List.Pairwise (fun a b => dnle a b = true)
      (print_backup_difference [cexBb, cexBz] [cexCa, cexCb] false).changed) ∧
    List.Pairwise (fun a b => dnle a b = true) [cexXa, cexY, cexXb] ∧
    List.Pairwise (fun a b => dnle a b = true) [cexBb, cexBz] ∧
    List.Pairwise (fun a b => dnle a b = true) [cexCa, cexCb] := by
  refine ⟨by decide, by decide, by decide, by decide, by decide⟩

theorem buildDict_append_aux (recs : List Rec) (d : List (String × Rec))
    (hd : ∀ r ∈ recs, dmem d (dgetD r "Name") = false)
    (hn : (recs.map (fun r => dgetD r "Name")).Nodup) :
    recs.foldl (fun d r => pyInsert d (dgetD r "Name") r) d =
      d ++ recs.map (fun r => (dgetD r "Name", r)) := by
  induction recs generalizing d with
  | nil => simp
  | cons r rs ih =>
    rw [List.foldl_cons,
      pyInsert_of_not_mem r (hd r (List.mem_cons_self r rs))]
    rw [List.map_cons] at hn
    obtain ⟨hn1, hn2⟩ := List.nodup_cons.mp hn
    rw [ih _ ?hfresh hn2, List.map_cons, List.append_cons, List.append_assoc]
    case hfresh =>
      intro q hq
      rw [dmem_eq_false_iff, keysOf, List.map_append]
      rw [List.mem_append]
      rintro (h | h)
      · exact absurd h (by
          rw [← keysOf]
          exact dmem_eq_false_iff.mp (hd q (List.mem_cons_of_mem r hq)))
      · simp only [List.map_cons, List.map_nil, List.mem_singleton] at h
        exact hn1 (h ▸ List.mem_map.mpr ⟨q, hq, rfl⟩)
    simp

theorem buildDict_eq_of_nodup_names {recs : List Rec}
    (h : (recs.map (fun r => dgetD r "Name")).Nodup) :
    buildDict recs = recs.map (fun r => (dgetD r "Name", r)) := by
  rw [buildDict, buildDict_append_aux recs [] (fun r _ => rfl) h]
  simp

/-- C8 as amended: `load`'s output is always sorted by `DisplayName`; and
with `ignore_suffix = false` and snapshot-shaped inputs (sorted by
`DisplayName`, duplicate-free names, as `load`/`list_services` produce),
the tolerant diff's `deleted_services` and `new_services` are sorted by
`DisplayName`.  The `changed` list (whose `DisplayName` field may hold an
overlay string) and all outputs under `ignore_suffix = true` follow
dict-insertion order instead, and the strict diff's entries follow the new
snapshot's order and need not contain a display name at all. -/
theorem sorted_outputs_amended :
    (∀ v out, load_services_from_file v = .ok out →
      out.Pairwise (fun a b => dnle a b = true)) ∧
    (∀ services_backup services_current,
      services_backup.Pairwise (fun a b => dnle a b = true) →
      services_current.Pairwise (fun a b => dnle a b = true) →
      (services_backup.map (fun r => dgetD r "Name")).Nodup →
      (services_current.map (fun r => dgetD r "Name")).Nodup →
      (print_backup_difference services_backup services_current false).deleted_services.Pairwise
        (fun a b => dnle a b = true) ∧
      (print_backup_difference services_backup services_current false).new_services.Pairwise
        (fun a b => dnle a b = true)) := by
  constructor
  · intro v out hok
    cases hv : toRecs v with
    | none =>
      simp only [load_services_from_file, hv] at hok
      cases hok
    | some recs =>
      cases hfm : firstMissing recs with
      | some kr =>
        simp only [load_services_from_file, hv, hfm] at hok
        cases hok
      | none =>
        rw [load_ok_of_valid hv hfm] at hok
        rw [← Except.ok.inj hok]
        exact pySortByDN_sorted recs
  · intro sb sc hsb hsc hnb hnc
    have hb := buildDict_eq_of_nodup_names hnb
    have hc := buildDict_eq_of_nodup_names hnc
    have hvb : valuesOf (buildDict sb) = sb := by
      rw [hb, valuesOf, List.map_map]
      exact List.map_id'' (fun _ => rfl) sb
    have hvc : valuesOf (buildDict sc) = sc := by
      rw [hc, valuesOf, List.map_map]
      exact List.map_id'' (fun _ => rfl) sc
    constructor
    · simp only [print_backup_difference, Bool.false_eq_true, if_false, hvb]
      exact List.Pairwise.sublist (List.filter_sublist sb) hsb
    · simp only [print_backup_difference, Bool.false_eq_true, if_false, hvc]
      exact List.Pairwise.sublist (List.filter_sublist sc) hsc

/-- Witness for the amended C8 at concrete inputs: a loaded singleton is
sorted, and the deleted/new lists of a tolerant diff of sorted snapshots
are sorted. -/
theorem sorted_outputs_amended_witness :
    [sampleA].Pairwise (fun a b => dnle a b = true) ∧
    (print_backup_difference [sampleA] [sampleB] false).deleted_services.Pairwise
      (fun a b => dnle a b = true) ∧
    (print_backup_difference [sampleA] [sampleB] false).new_services.Pairwise
      (fun a b => dnle a b = true) :=
  ⟨sorted_outputs_amended.1 (.vlist [.vdict sampleA]) [sampleA] rfl,
    (sorted_outputs_amended.2 [sampleA] [sampleB]
      (by decide) (by decide) (by decide) (by decide)).1,
    (sorted_outputs_amended.2 [sampleA] [sampleB]
      (by decide) (by decide) (by decide) (by decide)).2⟩

/-! ### C1: the overlay entry built by `dict.update` is the spec's overlay -/

theorem overlayUpdates_aux (serv_bac serv_cur : Rec) (ks : List String) :
    ∀ (acc : Rec), ks.Nodup → (∀ k ∈ ks, dmem acc k = false) →
    ks.foldl (fun acc k =>
      if dgetD serv_cur k == dgetD serv_bac k then acc
      else pyInsert acc k (dgetD serv_bac k ++ " -> " ++ dgetD serv_cur k)) acc =
    acc ++ ks.filterMap (fun k =>
      if dgetD serv_cur k == dgetD serv_bac k then none
      else some (k, dgetD serv_bac k ++ " -> " ++ dgetD serv_cur k)) := by
  induction ks with
  | nil => simp
  | cons k ks ih =>
    intro acc hnd hmem
    obtain ⟨hk, hks⟩ := List.nodup_cons.mp hnd
    rw [List.foldl_cons, List.filterMap_cons]
    by_cases hg : (dgetD serv_cur k == dgetD serv_bac k) = true
    · rw [if_pos hg, if_pos hg]
      exact ih acc hks (fun q hq => hmem q (List.mem_cons_of_mem k hq))
    · rw [if_neg hg, if_neg hg,
        pyInsert_of_not_mem _ (hmem k (List.mem_cons_self k ks)), ih _ hks ?hfresh,
        List.append_cons, List.append_assoc]
      case hfresh =>
        intro q hq
        rw [dmem_eq_false_iff, keysOf, List.map_append, List.mem_append]
        rintro (h | h)
        · exact absurd h (by
            rw [← keysOf]
            exact dmem_eq_false_iff.mp (hmem q (List.mem_cons_of_mem k hq)))
        · simp only [List.map_cons, List.map_nil, List.mem_singleton] at h
          exact hk (h ▸ hq)
      simp

theorem overlayUpdates_eq (serv_bac serv_cur : Rec) (hnd : (keysOf serv_cur).Nodup) :
    overlayUpdates serv_bac serv_cur = (keysOf serv_cur).filterMap (fun k =>
      if dgetD serv_cur k == dgetD serv_bac k then none
      else some (k, dgetD serv_bac k ++ " -> " ++ dgetD serv_cur k)) := by
  rw [overlayUpdates, overlayUpdates_aux serv_bac serv_cur _ [] hnd (fun _ _ => rfl)]
  simp

theorem keysOf_filterMap_to_rec (serv_bac : Rec) (r : Rec) (hnd : (keysOf r).Nodup) :
    (keysOf r).filterMap (fun k =>
      if dgetD r k == dgetD serv_bac k then none
      else some (k, dgetD serv_bac k ++ " -> " ++ dgetD r k)) =
    r.filterMap (fun p =>
      if p.2 == dgetD serv_bac p.1 then none
      else some (p.1, dgetD serv_bac p.1 ++ " -> " ++ p.2)) := by
  induction r with
  | nil => rfl
  | cons p r ih =>
    rw [keysOf_cons] at hnd ⊢
    obtain ⟨h1, h2⟩ := List.nodup_cons.mp hnd
    rw [List.filterMap_cons, List.filterMap_cons]
    have hget : dgetD (p :: r) p.1 = p.2 := by
      rw [dgetD, dlookup_cons, if_pos (by simp)]
      rfl
    have htail : ∀ k ∈ keysOf r, dgetD (p :: r) k = dgetD r k := by
      intro k hk
      rw [dgetD, dgetD, dlookup_cons, if_neg ?hne]
      case hne =>
        simp only [beq_iff_eq]
        exact fun he => h1 (he ▸ hk)
    rw [List.filterMap_congr (fun k hk => by rw [htail k hk]), ih h2, hget]

theorem foldl_pyInsert_updates (ups : Rec) :
    ∀ (r : Rec), (∀ p ∈ ups, dmem r p.1 = true) → (keysOf ups).Nodup →
    ups.foldl (fun acc p => pyInsert acc p.1 p.2) r =
      r.map (fun q => match dlookup ups q.1 with | some v => (q.1, v) | none => q) := by
  induction ups with
  | nil =>
    intro r _ _
    simp [dlookup]
  | cons p ups ih =>
    intro r hmem hnd
    rw [keysOf_cons] at hnd
    obtain ⟨h1, h2⟩ := List.nodup_cons.mp hnd
    have hp : dmem r p.1 = true := hmem p (List.mem_cons_self p ups)
    rw [List.foldl_cons, ih (pyInsert r p.1 p.2) ?hmem2 h2]
    case hmem2 =>
      intro q hq
      rw [dmem_iff_mem_keysOf, keysOf_pyInsert_of_mem _ hp]
      exact dmem_iff_mem_keysOf.mp (hmem q (List.mem_cons_of_mem p hq))
    rw [pyInsert_of_mem _ hp, List.map_map]
    apply List.map_congr_left
    intro q hq
    by_cases hqp : (q.1 == p.1) = true
    · have hqp' : q.1 = p.1 := by simpa using hqp
      have hnone : dlookup ups p.1 = none :=
        dlookup_none_of_dmem_false (dmem_eq_false_iff.mpr h1)
      simp only [Function.comp_apply, if_pos hqp]
      rw [dlookup_cons]
      simp only [hnone, hqp']
      simp
    · have hqp' : q.1 ≠ p.1 := by simpa using hqp
      simp only [Function.comp_apply, if_neg hqp]
      rw [dlookup_cons, if_neg (by simpa using fun he => hqp' he.symm)]

theorem keysOf_filterMap_ov_sublist (serv_bac : Rec) (r : Rec) :
    (keysOf (r.filterMap (fun p =>
      if p.2 == dgetD serv_bac p.1 then none
      else some (p.1, dgetD serv_bac p.1 ++ " -> " ++ p.2)))).Sublist (keysOf r) := by
  induction r with
  | nil => simp [keysOf]
  | cons p r ih =>
    rw [List.filterMap_cons]
    by_cases hc : (p.2 == dgetD serv_bac p.1) = true
    · rw [if_pos hc, keysOf_cons]
      exact ih.cons p.1
    · rw [if_neg hc, keysOf_cons, keysOf_cons]
      exact ih.cons₂ p.1

theorem dlookup_filterMap_ov (serv_bac : Rec) (r : Rec) (hnd : (keysOf r).Nodup) :
    ∀ q ∈ r, dlookup (r.filterMap (fun p =>
      if p.2 == dgetD serv_bac p.1 then none
      else some (p.1, dgetD serv_bac p.1 ++ " -> " ++ p.2))) q.1 =
      if q.2 == dgetD serv_bac q.1 then none
      else some (dgetD serv_bac q.1 ++ " -> " ++ q.2) := by
  induction r with
  | nil => simp
  | cons p r ih =>
    rw [keysOf_cons] at hnd
    obtain ⟨h1, h2⟩ := List.nodup_cons.mp hnd
    intro q hq
    rcases List.mem_cons.mp hq with hqp | hqr
    · subst hqp
      rw [List.filterMap_cons]
      by_cases hc : (q.2 == dgetD serv_bac q.1) = true
      · rw [if_pos hc, if_pos hc]
        apply dlookup_none_of_dmem_false
        rw [dmem_eq_false_iff]
        exact fun hmem => h1 ((keysOf_filterMap_ov_sublist serv_bac r).mem hmem)
      · rw [if_neg hc, if_neg hc, dlookup_cons, if_pos (by simp)]
    · have hne : p.1 ≠ q.1 := by
        intro he
        exact h1 (he ▸ List.mem_map.mpr ⟨q, hqr, rfl⟩)
      rw [List.filterMap_cons]
      by_cases hc : (p.2 == dgetD serv_bac p.1) = true
      · rw [if_pos hc]
        exact ih h2 q hqr
      · rw [if_neg hc, dlookup_cons, if_neg (by simpa using hne)]
        exact ih h2 q hqr

theorem srcOverlay_eq_specOverlay (serv_bac serv_cur : Rec)
    (hnd : (keysOf serv_cur).Nodup) :
    srcOverlay serv_bac serv_cur = specOverlay serv_bac serv_cur := by
  rw [srcOverlay, overlayUpdates_eq serv_bac serv_cur hnd,
    keysOf_filterMap_to_rec serv_bac serv_cur hnd,
    foldl_pyInsert_updates _ serv_cur ?hmem ((keysOf_filterMap_ov_sublist _ _).nodup hnd)]
  case hmem =>
    intro p hp
    obtain ⟨a, ha, hfa⟩ := List.mem_filterMap.mp hp
    by_cases hc : (a.2 == dgetD serv_bac a.1) = true
    · rw [if_pos hc] at hfa
      cases hfa
    · rw [if_neg hc] at hfa
      have hpa := Option.some.inj hfa
      have hp1 : p.1 = a.1 := by rw [← hpa]
      rw [hp1, dmem_iff_mem_keysOf]
      exact List.mem_map.mpr ⟨a, ha, rfl⟩
  rw [specOverlay]
  apply List.map_congr_left
  intro q hq
  rw [dlookup_filterMap_ov serv_bac serv_cur hnd q hq]
  by_cases hc : (q.2 == dgetD serv_bac q.1) = true
  · rw [if_pos hc, if_pos hc]
  · rw [if_neg hc, if_neg hc]

theorem tolerantChanged_aux (bdict : List (String × Rec)) (vals : List Rec) :
    ∀ (acc : List Rec),
    vals.foldl (fun acc serv_cur =>
      match dlookup bdict (dgetD serv_cur "Name") with
      | none => acc
      | some serv_bac =>
        if dictEq serv_cur serv_bac then acc
        else if dgetD serv_cur "StartType" == dgetD serv_bac "StartType" then acc
        else acc ++ [srcOverlay serv_bac serv_cur]) acc =
    acc ++ vals.filterMap (fun serv_cur =>
      match dlookup bdict (dgetD serv_cur "Name") with
      | none => none
      | some serv_bac =>
        if dictEq serv_cur serv_bac then none
        else if dgetD serv_cur "StartType" == dgetD serv_bac "StartType" then none
        else some (srcOverlay serv_bac serv_cur)) := by
  induction vals with
  | nil => simp
  | cons r vals ih =>
    intro acc
    rw [List.foldl_cons, List.filterMap_cons]
    cases hl : dlookup bdict (dgetD r "Name") with
    | none =>
      simp only []
      exact ih acc
    | some serv_bac =>
      simp only []
      by_cases h1 : dictEq r serv_bac = true
      · rw [if_pos h1, if_pos h1]
        exact ih acc
      · by_cases h2 : (dgetD r "StartType" == dgetD serv_bac "StartType") = true
        · rw [if_neg h1, if_pos h2, if_neg h1, if_pos h2]
          exact ih acc
        · rw [if_neg h1, if_neg h2, if_neg h1, if_neg h2, ih (acc ++ [srcOverlay serv_bac r]),
            List.append_cons, List.append_assoc]
          simp

/-- C1 — Tolerant diff classification: for every backup snapshot and live
snapshot (live records being genuine Python dicts, i.e. duplicate-free
keys), the `changed` list of the tolerant diff is exactly the per-record
classification the spec describes, applied to each live record of the
name-keyed live dict in order: no entry when the record's name is absent
from the backup map, none when the full records are equal, none when they
differ but `StartType` agrees, and otherwise a copy of the live record's
fields in which every differing field holds `"<old value> -> <new value>"`
(`specClassify` / `specOverlay` are written from the spec's wording; the
code's `deepcopy` + `dict.update` entry is proved equal to that overlay). -/
theorem tolerant_changed_classification (services_backup services_current : List Rec)
    (h : ∀ r ∈ services_current, (keysOf r).Nodup) :
    (print_backup_difference services_backup services_current false).changed =
      (valuesOf (buildDict services_current)).filterMap
        (specClassify (buildDict services_backup)) := by
  simp only [print_backup_difference, Bool.false_eq_true, if_false]
  rw [tolerantChanged, tolerantChanged_aux, List.nil_append]
  apply List.filterMap_congr
  intro r hr
  have hrS : r ∈ services_current := by
    obtain ⟨k, hk⟩ := exists_key_of_mem_valuesOf hr
    exact (mem_buildDict_spec hk).2
  cases hl : dlookup (buildDict services_backup) (dgetD r "Name") with
  | none => simp only [specClassify, hl]
  | some serv_bac =>
    simp only [specClassify, hl]
    by_cases h1 : dictEq r serv_bac = true
    · rw [if_pos h1, if_pos h1]
    · by_cases h2 : (dgetD r "StartType" == dgetD serv_bac "StartType") = true
      · rw [if_neg h1, if_pos h2, if_neg h1, if_pos h2]
      · rw [if_neg h1, if_neg h2, if_neg h1, if_neg h2,
          srcOverlay_eq_specOverlay serv_bac r (h r hrS)]

/-- Witness for C1 at the spec's own tolerant-diff example: backup holds
`A`/Automatic, live holds `A`/Disabled and a new `B`/Manual; the `changed`
list matches the spec classification and concretely equals the copy of the
live `A` record with `StartType` overlaid to `"Automatic -> Disabled"`. -/
theorem tolerant_changed_classification_witness :
    (print_backup_difference [sampleA] [sampleADis, sampleB] false).changed =
      (valuesOf (buildDict [sampleADis, sampleB])).filterMap
        (specClassify (buildDict [sampleA])) ∧
    (print_backup_difference [sampleA] [sampleADis, sampleB] false).changed =
      [[("Name", "A"), ("DisplayName", "disp A"), ("StartType", "Automatic -> Disabled")]] :=
  ⟨tolerant_changed_classification [sampleA] [sampleADis, sampleB] (by decide), by decide⟩

end ServicesBackup
